import Mathlib

/-!
Shallow embedding of the curation pipeline in src/main.py (weekly ride-hailing
news brief): normalization, relevance classification, per-company capping,
near-duplicate suppression, and the output sanitizer and truncator, together
with theorems settling the specification claims about them.

Strings are modeled as Lean strings (lists of unicode code points, matching
Python len and indexing on str). Python string helpers (strip, split,
splitlines, rstrip, substring containment) are embedded below on List Char.
All definitions are executable and kernel-reducible: loops become structural
recursion, with an explicit fuel parameter where the Python loop consumes a
variable number of characters per step (fuel is always instantiated large
enough that it is never exhausted on the actual call).
-/

/-! Python string primitives. -/

/-- Python whitespace for str.strip and the regex class backslash-s
(ASCII range, which is all the program relies on). -/
def isPyWs (c : Char) : Bool :=
  c == ' ' || c == '\t' || c == '\n' || c == '\r' || c == '\x0b' || c == '\x0c'

/-- str.strip() on a character list. -/
def pyStripList (cs : List Char) : List Char :=
  ((cs.dropWhile isPyWs).reverse.dropWhile isPyWs).reverse

/-- str.strip(). -/
def pyStrip (s : String) : String := String.mk (pyStripList s.data)

/-- Does the first list occur as a leading segment of the second. -/
def hasPre : List Char → List Char → Bool
  | [], _ => true
  | _ :: _, [] => false
  | a :: as, b :: bs => a == b && hasPre as bs

/-- Substring containment, the Python `in` operator on str. -/
def containsSub (n : List Char) : List Char → Bool
  | [] => hasPre n []
  | c :: rest => hasPre n (c :: rest) || containsSub n rest

/-- Python `k in s` for strings. -/
def strIn (k s : String) : Bool := containsSub k.data s.data

/-- str.startswith(pre). -/
def strStarts (s pre : String) : Bool := hasPre pre.data s.data

/-- str.split(sep) for a one-character separator, keeping empty pieces. -/
def splitCharGo (sep : Char) : List Char → List Char → List (List Char)
  | [], acc => [acc.reverse]
  | c :: rest, acc =>
    if c == sep then acc.reverse :: splitCharGo sep rest []
    else splitCharGo sep rest (c :: acc)

/-- str.split(sep) for a one-character separator. -/
def pySplitChar (s : String) (sep : Char) : List String :=
  (splitCharGo sep s.data []).map String.mk

/-- str.split(sep) for a multi-character separator; fuel bounds the scan and
is instantiated with the string length plus one, which is never exhausted. -/
def splitSepGo (sep : List Char) : Nat → List Char → List Char → List (List Char)
  | 0, s, acc => [acc.reverse ++ s]
  | _ + 1, [], acc => [acc.reverse]
  | fuel + 1, c :: rest, acc =>
    if hasPre sep (c :: rest) then
      acc.reverse :: splitSepGo sep fuel ((c :: rest).drop sep.length) []
    else splitSepGo sep fuel rest (c :: acc)

/-- str.split(sep) for a non-empty separator string. -/
def pySplitStr (s sep : String) : List String :=
  (splitSepGo sep.data (s.data.length + 1) s.data []).map String.mk

/-- str.splitlines() for the line breaks that occur in this program
(newline, carriage return, and the two-character sequence). -/
def splitlinesGo : List Char → List Char → List String
  | [], acc => if acc.isEmpty then [] else [String.mk acc.reverse]
  | '\r' :: '\n' :: rest, acc => String.mk acc.reverse :: splitlinesGo rest []
  | '\r' :: rest, acc => String.mk acc.reverse :: splitlinesGo rest []
  | '\n' :: rest, acc => String.mk acc.reverse :: splitlinesGo rest []
  | c :: rest, acc => splitlinesGo rest (c :: acc)

/-- str.splitlines(). -/
def pySplitlines (s : String) : List String := splitlinesGo s.data []

/-- The Python expression joining lines with a newline separator. -/
def joinNL : List String → String
  | [] => ""
  | [x] => x
  | x :: y :: rest => x ++ "\n" ++ joinNL (y :: rest)

/-- str.lower() (ASCII case fold, which is all the matching relies on). -/
def pyLower (s : String) : String := String.mk (s.data.map Char.toLower)

/-- str.rstrip(chars): remove every trailing character from the given set. -/
def pyRstrip (cs : List Char) (strip : List Char) : List Char :=
  (cs.reverse.dropWhile (fun c => strip.contains c)).reverse

/-- str.rstrip() with no argument: remove trailing whitespace. -/
def pyRstripWs (cs : List Char) : List Char :=
  (cs.reverse.dropWhile isPyWs).reverse

/-! The program constants of src/main.py. -/

/-- The nine tracked company names, in COMPANY_PATTERNS order. -/
def COMPANIES : List String :=
  ["Uber", "DiDi", "Bolt", "inDrive", "Cabify", "Yassir", "Heetch", "Grab", "Gojek"]

/-- AGGREGATOR_DOMAINS. -/
def AGGREGATOR_DOMAINS : List String :=
  ["biztoc.com", "news.google.com", "news.yahoo.com", "finance.yahoo.com", "flipboard.com"]

/-- INCIDENT_BLACKLIST. -/
def INCIDENT_BLACKLIST : List String :=
  ["assault", "punched", "punch", "stab", "stabbing", "murder", "killed", "kill",
   "rape", "sexual assault", "molest", "robbery", "beaten", "beating",
   "accident", "crash", "collision", "injured", "injury", "fatal", "death", "dead",
   "explosion", "fire", "shooting", "homicide"]

/-- STUDY_REPORT_TERMS. -/
def STUDY_REPORT_TERMS : List String :=
  ["study", "studies", "research", "report", "whitepaper", "survey", "analysis",
   "finds", "reveals", "indicates"]

/-- COMMERCIAL_WHITELIST. -/
def COMMERCIAL_WHITELIST : List String :=
  ["launch", "expansion", "expand", "opens", "opening", "enters", "entry", "rollout",
   "city", "cities", "country", "countries", "region", "market",
   "merger", "acquisition", "acquires", "m&a", "deal", "contract",
   "funding", "raises", "raise", "investment", "invests", "round",
   "partnership", "partners", "alliance", "collaboration",
   "ipo", "listing", "valuation", "revenue", "profit", "earnings",
   "pricing", "fare", "regulation", "license", "licence", "permit", "approval",
   "product", "feature", "safety feature", "ev", "electric", "autonomous", "robotaxi"]

/-! The data model. An Article record carries the fields the embedded
operations read; source and published_at are carried opaquely by the program
and read by none of the embedded functions, so they are omitted. -/

structure Article where
  title : String
  url : String
  description : String
  companies : List String
deriving DecidableEq

/-- text_of: the lowercase concatenation title, description, url,
separated by single spaces. -/
def text_of (a : Article) : String :=
  pyLower (a.title ++ " " ++ a.description ++ " " ++ a.url)

/-- has_any: some keyword occurs as a substring of the text. -/
def has_any (t : String) (keywords : List String) : Bool :=
  keywords.any (fun k => strIn k t)

/-- is_business_relevant: the hard boolean relevance gate. -/
def is_business_relevant (a : Article) : Bool :=
  if has_any (text_of a) INCIDENT_BLACKLIST then false
  else if has_any (text_of a) STUDY_REPORT_TERMS && !(has_any (text_of a) COMMERCIAL_WHITELIST) then false
  else true

/-- The url canonicalization applied at normalization and inside the
deduplicator: split("?")[0].rstrip("/"). -/
def canonical_url (s : String) : String :=
  String.mk (pyRstrip (s.data.takeWhile (fun c => c != '?')) ['/'])

/-- domain_of: the third "/"-separated field, lowercased; empty string when
the url has fewer than three fields (the IndexError branch). -/
def domain_of (u : String) : String :=
  let parts := splitCharGo '/' u.data []
  if parts.length ≤ 2 then "" else String.mk ((parts.getD 2 []).map Char.toLower)

/-! The fairness capper, limit_per_company. The Python counter dict has
exactly the COMPANIES as keys, all initialized to zero; it is embedded as a
function from names to counts that is zero off that key set, with the
dict-membership test written out as membership in COMPANIES. -/

/-- The increment loop of the capper: for each tag that is a known company,
bump its counter. -/
def bumpCounts (counts : String → Nat) : List String → (String → Nat)
  | [] => counts
  | c :: cs =>
    bumpCounts
      (if COMPANIES.contains c then
        (fun x => if x == c then counts c + 1 else counts x)
      else counts) cs

/-- The scan of limit_per_company over the article sequence. -/
def capGo (maxPer : Nat) (counts : String → Nat) : List Article → List Article
  | [] => []
  | a :: rest =>
    if a.companies.isEmpty then capGo maxPer counts rest
    else if a.companies.any (fun c => decide (maxPer ≤ counts c)) then capGo maxPer counts rest
    else a :: capGo maxPer (bumpCounts counts a.companies) rest

/-- limit_per_company. -/
def limit_per_company (articles : List Article) (maxPer : Nat) : List Article :=
  capGo maxPer (fun _ => 0) articles

/-! The similarity deduplicator. The program compares normalized titles with
difflib.SequenceMatcher(None, a, b).ratio(). That stdlib metric is embedded
here: repeatedly find the longest matching block (earliest in a, then
earliest in b, on ties), recurse on both sides, and sum the block sizes; the
ratio is twice that sum over the total length. The junk machinery of
SequenceMatcher is inert here: no junk predicate is passed, and autojunk
only activates on strings of 200 characters or more, far above any
normalized title this pipeline compares. Thresholds are compared exactly as
rationals (num/den), written out as an integer cross-multiplication; the
thresholds in the source are 0.75, 0.80 and 0.85. -/

/-- norm_title: lowercase, replace every character outside a-z, 0-9 and
whitespace by a space, collapse whitespace runs to single spaces, strip. -/
def collapseWsGo : List Char → Bool → List Char
  | [], _ => []
  | c :: rest, prevWs =>
    if isPyWs c then
      (if prevWs then collapseWsGo rest true else ' ' :: collapseWsGo rest true)
    else c :: collapseWsGo rest false

/-- norm_title from the source. -/
def norm_title (s : String) : String :=
  let l := (pyLower s).data
  let l2 := l.map (fun c => if c.isLower || c.isDigit || isPyWs c then c else ' ')
  String.mk (pyStripList (collapseWsGo l2 false))

/-- The b2j table of SequenceMatcher: the ascending positions of a character
in the second string. -/
def bIndices (b : List Char) (c : Char) : List Nat :=
  (List.range b.length).filter (fun j => b.getD j ' ' == c)

/-- The inner loop of find_longest_match over the candidate positions j of
one character of a: j2len is the dynamic-programming row of the previous i,
read through a total function that is zero off its keys, exactly like the
dict with get default zero. -/
def smInner : List Nat → (Nat → Nat) → (Nat → Nat) → Nat → Nat → (Nat × Nat × Nat) →
    ((Nat → Nat) × (Nat × Nat × Nat))
  | [], _, newRow, _, _, best => (newRow, best)
  | j :: js, oldRow, newRow, bhi, i, best =>
    if bhi ≤ j then (newRow, best)
    else
      let k := (if j == 0 then 0 else oldRow (j - 1)) + 1
      let newRow2 := fun x => if x == j then k else newRow x
      let best2 := if best.2.2 < k then (i + 1 - k, j + 1 - k, k) else best
      smInner js oldRow newRow2 bhi i best2

/-- The outer loop of find_longest_match over the positions i of a. -/
def smOuter (b2j : Char → List Nat) (blo bhi : Nat) :
    List (Nat × Char) → (Nat → Nat) → (Nat × Nat × Nat) → (Nat × Nat × Nat)
  | [], _, best => best
  | (i, c) :: rest, j2len, best =>
    let p := smInner ((b2j c).filter (fun j => decide (blo ≤ j))) j2len (fun _ => 0) bhi i best
    smOuter b2j blo bhi rest p.1 p.2

/-- find_longest_match on the window a[alo:ahi], b[blo:bhi]. -/
def find_longest_match (a b : List Char) (alo ahi blo bhi : Nat) : Nat × Nat × Nat :=
  let slice := (List.range (ahi - alo)).map (fun d => (alo + d, a.getD (alo + d) ' '))
  smOuter (bIndices b) blo bhi slice (fun _ => 0) (alo, blo, 0)

/-- Total size of the matching blocks (the recursion of get_matching_blocks,
summing only sizes). Each recursive call strictly shrinks the a-window, so a
fuel of the length of a plus one is never exhausted. -/
def matchTotalGo (a b : List Char) : Nat → Nat → Nat → Nat → Nat → Nat
  | 0, _, _, _, _ => 0
  | fuel + 1, alo, ahi, blo, bhi =>
    let t := find_longest_match a b alo ahi blo bhi
    if t.2.2 == 0 then 0
    else
      matchTotalGo a b fuel alo t.1 blo t.2.1 + t.2.2 +
        matchTotalGo a b fuel (t.1 + t.2.2) ahi (t.2.1 + t.2.2) bhi

/-- Total matched size of SequenceMatcher(None, a, b). -/
def matchTotal (a b : List Char) : Nat :=
  matchTotalGo a b (a.length + 1) 0 a.length 0 b.length

/-- similar(a, b, num/den): SequenceMatcher ratio at least the threshold,
compared exactly: 2 M / (len a + len b) is at least num / den. Both strings
empty gives ratio one in difflib, and the cross-multiplied form also holds
then for every threshold at most one. -/
def similar (a b : String) (num den : Nat) : Bool :=
  decide (num * (a.data.length + b.data.length) ≤ den * (2 * matchTotal a.data b.data))

/-- The duplicate test of merge_dedupe_with_similarity between a candidate
article a and an already kept article b: same canonicalized domain with the
loose 0.75 title similarity, or any domain with the strict 0.85 similarity.
The canonical urls are computed exactly as in the source (and, notably, are
never compared for equality). -/
def dupPair (a b : Article) : Bool :=
  let url := canonical_url a.url
  let tnorm := norm_title (pyStrip a.title)
  let burl := canonical_url b.url
  let btnorm := norm_title (pyStrip b.title)
  (domain_of url == domain_of burl && similar tnorm btnorm 3 4) || similar tnorm btnorm 17 20

/-- Is the raw url domain of the article in AGGREGATOR_DOMAINS. -/
def isAgg (a : Article) : Bool := AGGREGATOR_DOMAINS.contains (domain_of a.url)

/-- The ordering bias of merge_dedupe_with_similarity: non-aggregator
articles first, then aggregator ones, both in original order. -/
def orderedOf (articles : List Article) : List Article :=
  articles.filter (fun a => !isAgg a) ++ articles.filter (fun a => isAgg a)

/-- The duplicate scan: keep each article unless it duplicates an already
kept one. -/
def dedupeScan (kept : List Article) : List Article → List Article
  | [] => kept
  | a :: rest =>
    if kept.any (fun b => dupPair a b) then dedupeScan kept rest
    else dedupeScan (kept ++ [a]) rest

/-- merge_dedupe_with_similarity. -/
def merge_dedupe_with_similarity (articles : List Article) : List Article :=
  dedupeScan [] (orderedOf articles)

/-! The output sanitizer. Lines come from splitlines, so they contain no
newline; the two regular expressions of the source are deterministic on such
lines and are embedded as direct scans (leftmost match; the lazy headline
group is realized by trying the shortest headline first). -/

/-- The opening of the anchor pattern. -/
def anchorOpen : List Char := "<a href=\"".data

/-- The closing anchor tag. -/
def anchorClose : List Char := "</a>".data

/-- Case-insensitive leading-segment test, for the one pattern compiled with
re.IGNORECASE (its literals are ASCII, so case folding is toLower). -/
def hasPreCI : List Char → List Char → Bool
  | [], _ => true
  | _ :: _, [] => false
  | a :: as, b :: bs => a.toLower == b.toLower && hasPreCI as bs

/-- Match ANCHOR_RE at the start of the character list, returning the url
group: literal opening (case-insensitive, since ANCHOR_RE is compiled with
re.IGNORECASE), one or more non-quote characters, then quote and
greater-than. The url group is returned as written. -/
def anchorUrlAt (s : List Char) : Option (List Char) :=
  if hasPreCI anchorOpen s then
    let s1 := s.drop anchorOpen.length
    let x := s1.takeWhile (fun c => c != '"')
    match s1.dropWhile (fun c => c != '"') with
    | '"' :: '>' :: _ => if x.isEmpty then none else some x
    | _ => none
  else none

/-- re.search for ANCHOR_RE: leftmost position where the pattern matches. -/
def anchorScan : List Char → Option (List Char)
  | [] => none
  | c :: rest =>
    match anchorUrlAt (c :: rest) with
    | some x => some x
    | none => anchorScan rest

/-- The url extracted by ANCHOR_RE.search, if any. -/
def anchorUrl (s : String) : Option String := (anchorScan s.data).map String.mk

/-- dedupe_output_bullets: drop a bullet line whose anchor url was already
seen; lines without a parsable anchor, and non-bullet lines, pass through. -/
def dedupeGo (seen : List String) : List String → List String
  | [] => []
  | ln :: rest =>
    if strStarts (pyStrip ln) "➡️" then
      match anchorUrl (pyStrip ln) with
      | some u =>
        if seen.contains u then dedupeGo seen rest
        else ln :: dedupeGo (u :: seen) rest
      | none => ln :: dedupeGo seen rest
    else ln :: dedupeGo seen rest

/-- dedupe_output_bullets. -/
def dedupe_output_bullets (text : String) : String :=
  joinNL (dedupeGo [] (pySplitlines text))

/-- The Top block header test of enforce_output_company_cap. -/
def isTopHeader (ln : String) : Bool := strStarts (pyStrip ln) "<b>📌 Top"

/-- The Top block terminator test: the separator line or the Trend header. -/
def isTopEnd (ln : String) : Bool :=
  pyStrip ln == "––––" || strStarts (pyStrip ln) "<b>📌 Trend"

/-- Index of the first line satisfying the predicate (the next(...) over
enumerate in the source). -/
def findIdxQ (p : String → Bool) : List String → Option Nat
  | [] => none
  | x :: xs => if p x then some 0 else (findIdxQ p xs).map (fun n => n + 1)

/-- The " — "-separated fields of a stripped bullet line. -/
def bulletParts (ln : String) : List String := pySplitStr (pyStrip ln) " — "

/-- The company labels parsed from the last field: split on "/", strip each,
keep the non-empty ones. -/
def bulletComps (ln : String) : List String :=
  ((pySplitStr (((bulletParts ln).getLast?).getD "") "/").map pyStrip).filter
    (fun c => c != "")

/-- The per-line loop of enforce_output_company_cap over the Top block:
non-bullet lines pass through; malformed bullets (fewer than three fields)
are kept without counting; bullets whose labels name no known company are
dropped; bullets over the cap for some labeled known company are dropped;
the rest are kept and counted. -/
def processSection (maxPer : Nat) (counts : String → Nat) : List String → List String
  | [] => []
  | ln :: rest =>
    if strStarts (pyStrip ln) "➡️" then
      if (bulletParts ln).length < 3 then ln :: processSection maxPer counts rest
      else if (bulletComps ln).any (fun c => COMPANIES.contains c) then
        (if (bulletComps ln).any
            (fun c => COMPANIES.contains c && decide (maxPer ≤ counts c)) then
          processSection maxPer counts rest
        else ln :: processSection maxPer (bumpCounts counts (bulletComps ln)) rest)
      else processSection maxPer counts rest
    else ln :: processSection maxPer counts rest

/-- The end of the Top block: first terminator line after the header, or the
end of the text. -/
def endIdxFrom (lines : List String) (t : Nat) : Nat :=
  match findIdxQ isTopEnd (lines.drop (t + 1)) with
  | some d => t + 1 + d
  | none => lines.length

/-- enforce_output_company_cap on the line list: rebuild the text from the
unchanged prefix through the header, the processed Top section, and the
unchanged remainder from the terminator on. -/
def enforceCapLines (lines : List String) (maxPer : Nat) : List String :=
  match findIdxQ isTopHeader lines with
  | none => lines
  | some t =>
    lines.take (t + 1)
      ++ processSection maxPer (fun _ => 0)
          ((lines.drop (t + 1)).take (endIdxFrom lines t - (t + 1)))
      ++ lines.drop (endIdxFrom lines t)

/-- enforce_output_company_cap: the text is returned untouched when no Top
header line exists. -/
def enforce_output_company_cap (text : String) (maxPer : Nat) : String :=
  match findIdxQ isTopHeader (pySplitlines text) with
  | none => text
  | some _ => joinNL (enforceCapLines (pySplitlines text) maxPer)

/-! The truncator, truncate_to_one_message. -/

/-- Is a line a truncator bullet: stripped, it starts with the bullet glyph
followed by a space. -/
def isBulletT (ln : String) : Bool := strStarts (pyStrip ln) "➡️ "

/-- The bullet positions of the line list (enumerate-and-filter). -/
def bulletIdxs : List String → List Nat
  | [] => []
  | x :: xs =>
    if isBulletT x then 0 :: (bulletIdxs xs).map (fun n => n + 1)
    else (bulletIdxs xs).map (fun n => n + 1)

/-- The trailing group of the shrink_line pattern after the closing anchor:
one or more whitespace characters, an em dash, one or more whitespace
characters, then at least one further character, reaching the end of the
line. Backtracking collapses as described: the run before the dash is the
maximal whitespace run, and after the dash at least one character must
remain beyond a non-empty whitespace run. -/
def tailWsOk (t : List Char) : Bool :=
  let w1 := (t.takeWhile isPyWs).length
  if w1 == 0 then false
  else
    match t.drop w1 with
    | '—' :: rest =>
      let w := (rest.takeWhile isPyWs).length
      if w == rest.length then decide (2 ≤ w) else decide (1 ≤ w)
    | _ => false

/-- The lazy headline group: the shortest non-empty headline after which the
closing anchor and a valid tail follow; returns the headline and the tail. -/
def findHeadGo : List Char → List Char → Option (List Char × List Char)
  | _, [] => none
  | hd, c :: rest =>
    if !hd.isEmpty && hasPre anchorClose (c :: rest)
        && tailWsOk ((c :: rest).drop anchorClose.length) then
      some (hd, (c :: rest).drop anchorClose.length)
    else findHeadGo (hd ++ [c]) rest

/-- Match the shrink_line pattern at the start of the list, returning the
three used groups: the full opening anchor, the headline, and the tail. -/
def shrinkMatchAt (s : List Char) : Option (List Char × List Char × List Char) :=
  if hasPre anchorOpen s then
    let s1 := s.drop anchorOpen.length
    let x := s1.takeWhile (fun c => c != '"')
    match s1.dropWhile (fun c => c != '"') with
    | '"' :: '>' :: r2 =>
      if x.isEmpty then none
      else
        match findHeadGo [] r2 with
        | some (hd, tl) => some (anchorOpen ++ x ++ ['"', '>'], hd, tl)
        | none => none
    | _ => none
  else none

/-- re.search for the shrink_line pattern: leftmost matching position. -/
def shrinkScan : List Char → Option (List Char × List Char × List Char)
  | [] => none
  | c :: rest =>
    match shrinkMatchAt (c :: rest) with
    | some r => some r
    | none => shrinkScan rest

/-- shrink_line: when the pattern matches and the headline exceeds the
budget, rebuild the line from the matched groups with the headline cut,
right-stripped and ellipsized (as in the source, any text before the match
start is not part of the groups and is dropped). -/
def shrink_line (line : String) (maxHead : Nat) : String :=
  match shrinkScan line.data with
  | none => line
  | some (pre, hd, tl) =>
    if hd.length ≤ maxHead then line
    else String.mk (pre ++ pyRstripWs (hd.take maxHead) ++ ['…'] ++ anchorClose ++ tl)

/-- One pass of the shrink loop body: shrink the line at every bullet
position. -/
def applyShrinks (lines : List String) (bidx : List Nat) (maxHead : Nat) : List String :=
  bidx.foldl (fun ls i => ls.set i (shrink_line (ls.getD i "") maxHead)) lines

/-- The first while loop of the truncator: shrink bullets while the joined
text is over the limit and the headline budget is at least 80, decreasing
the budget by 10 per pass. The budget starts at 140, so the loop runs at
most seven times; the fuel is instantiated at 15 and never exhausted. -/
def shrinkGo : Nat → List String → List Nat → Nat → Nat → List String
  | 0, lines, _, _, _ => lines
  | fuel + 1, lines, bidx, maxLen, limit =>
    if limit < (joinNL lines).length ∧ 80 ≤ maxLen then
      shrinkGo fuel (applyShrinks lines bidx maxLen) bidx (maxLen - 10) limit
    else lines

/-- The second while loop of the truncator: drop whole bullet lines from the
last one backwards while the joined text is over the limit. -/
def dropGo (limit : Nat) : List String → List Nat → List String
  | lines, [] => lines
  | lines, i :: rev =>
    if limit < (joinNL lines).length then dropGo limit (lines.eraseIdx i) rev
    else lines

/-- truncate_to_one_message (the source default for the hard limit is 4096,
passed explicitly here). -/
def truncate_to_one_message (text : String) (hard_limit : Nat) : String :=
  if text.length ≤ hard_limit then text
  else
    joinNL (dropGo hard_limit
      (shrinkGo 15 (pySplitlines text) (bulletIdxs (pySplitlines text)) 140 hard_limit)
      (bulletIdxs (pySplitlines text)).reverse)

/-! Helper lemmas about the capper counters. -/

/-- Bumping never decreases any counter. -/
theorem bumpCounts_ge (tags : List String) : ∀ (counts : String → Nat) (x : String),
    counts x ≤ bumpCounts counts tags x := by
  induction tags with
  | nil => intro counts x; exact Nat.le_refl _
  | cons c cs ih =>
    intro counts x
    refine Nat.le_trans ?_ (ih _ x)
    by_cases hc : c ∈ COMPANIES
    · by_cases hx : x = c
      · subst hx; simp [hc]
      · simp [hc, hx]
    · simp [hc]

/-- Bumping with a known company among the tags increments its counter. -/
theorem bumpCounts_succ_le (c0 : String) (hc0 : c0 ∈ COMPANIES) :
    ∀ (tags : List String) (counts : String → Nat), c0 ∈ tags →
    counts c0 + 1 ≤ bumpCounts counts tags c0 := by
  intro tags
  induction tags with
  | nil => intro counts h; cases h
  | cons c cs ih =>
    intro counts hmem
    rcases List.mem_cons.mp hmem with h0 | h0
    · subst h0
      refine Nat.le_trans ?_ (bumpCounts_ge cs _ c0)
      simp [hc0]
    · refine Nat.le_trans ?_ (ih _ h0)
      by_cases hc : c ∈ COMPANIES
      · by_cases hx : c0 = c
        · subst hx; simp [hc]
        · simp [hc, hx]
      · simp [hc]

/-- The per-company count of the capper output is bounded by the remaining
budget of the entering counter. -/
theorem capGo_countP_le (K : Nat) (C : String) (hC : C ∈ COMPANIES) :
    ∀ (l : List Article) (counts : String → Nat),
      List.countP (fun x => x.companies.contains C) (capGo K counts l) ≤ K - counts C := by
  intro l
  induction l with
  | nil => intro counts; simp [capGo]
  | cons a rest ih =>
    intro counts
    by_cases h1 : a.companies.isEmpty = true
    · simpa [capGo, h1] using ih counts
    · by_cases h2 : a.companies.any (fun c => decide (K ≤ counts c)) = true
      · simpa [capGo, h1, h2] using ih counts
      · have hstep :
            capGo K counts (a :: rest) = a :: capGo K (bumpCounts counts a.companies) rest := by
          simp [capGo, h1, h2]
        rw [hstep, List.countP_cons]
        have ihb := ih (bumpCounts counts a.companies)
        have hge := bumpCounts_ge a.companies counts C
        by_cases hmem : C ∈ a.companies
        · have hlt : ¬ (K ≤ counts C) := by
            have hall : ∀ c ∈ a.companies, ¬ (K ≤ counts c) := by simpa using h2
            exact hall C hmem
          have hsucc := bumpCounts_succ_le C hC a.companies counts hmem
          have hc1 : ((fun x => x.companies.contains C) a = true) := by simpa using hmem
          rw [if_pos hc1]
          omega
        · have hc0 : ¬ ((fun x => x.companies.contains C) a = true) := by simpa using hmem
          rw [if_neg hc0]
          omega

/-- The capper output is a subsequence of its input. -/
theorem capGo_sublist (K : Nat) : ∀ (l : List Article) (counts : String → Nat),
    List.Sublist (capGo K counts l) l := by
  intro l
  induction l with
  | nil => intro counts; simp [capGo]
  | cons a rest ih =>
    intro counts
    by_cases h1 : a.companies.isEmpty = true
    · simpa [capGo, h1] using List.Sublist.cons a (ih counts)
    · by_cases h2 : a.companies.any (fun c => decide (K ≤ counts c)) = true
      · simpa [capGo, h1, h2] using List.Sublist.cons a (ih counts)
      · simpa [capGo, h1, h2] using List.Sublist.cons₂ a (ih (bumpCounts counts a.companies))

/-- C3: in the output of limit_per_company every tracked company tags at
most K admitted articles; the admitted articles form a subsequence of the
input, in first-come input order; and an article one of whose tagged
companies has reached the cap is dropped whole, contributing nothing. -/
theorem c3_fairness_cap (l : List Article) (K : Nat) (C : String)
    (counts : String → Nat) (a : Article) (rest : List Article) :
    (C ∈ COMPANIES →
      List.countP (fun x => x.companies.contains C) (limit_per_company l K) ≤ K)
    ∧ List.Sublist (limit_per_company l K) l
    ∧ (a.companies.any (fun c => decide (K ≤ counts c)) = true →
        capGo K counts (a :: rest) = capGo K counts rest) := by
  refine ⟨?_, ?_, ?_⟩
  · intro hC
    have := capGo_countP_le K C hC l (fun _ => 0)
    simpa [limit_per_company] using this
  · exact capGo_sublist K l (fun _ => 0)
  · intro h
    by_cases h1 : a.companies.isEmpty = true
    · simp [capGo, h1]
    · simp [capGo, h1, h]

/-- C3 witness articles and counter. -/
def artU1 : Article := { title := "u1", url := "https://a.com/1", description := "", companies := ["Uber"] }

/-- Second C3 witness article. -/
def artU2 : Article := { title := "u2", url := "https://a.com/2", description := "", companies := ["Uber"] }

/-- A concrete counter with the Uber budget exhausted at cap one. -/
def countsOne : String → Nat := fun c => if c == "Uber" then 1 else 0

/-- C3 witness: with cap one and two Uber articles, the count bound, the
subsequence property, and the drop-whole-article rule hold at a concrete
input. -/
theorem c3_fairness_cap_witness :
    ("Uber" ∈ COMPANIES
      ∧ List.countP (fun x => x.companies.contains "Uber")
          (limit_per_company [artU1, artU2] 1) ≤ 1)
    ∧ List.Sublist (limit_per_company [artU1, artU2] 1) [artU1, artU2]
    ∧ (artU2.companies.any (fun c => decide (1 ≤ countsOne c)) = true
        ∧ capGo 1 countsOne [artU2] = capGo 1 countsOne []) :=
  ⟨⟨by decide, (c3_fairness_cap [artU1, artU2] 1 "Uber" countsOne artU2 []).1 (by decide)⟩,
   (c3_fairness_cap [artU1, artU2] 1 "Uber" countsOne artU2 []).2.1,
   by decide,
   (c3_fairness_cap [artU1, artU2] 1 "Uber" countsOne artU2 []).2.2 (by decide)⟩

/-- C7: an article whose companies list is empty never appears in the
output of limit_per_company, for any input sequence and any cap. -/
theorem c7_no_tag_drop (l : List Article) (K : Nat) (a : Article)
    (h : a.companies = []) : a ∉ limit_per_company l K := by
  suffices hgen : ∀ (l : List Article) (counts : String → Nat), a ∉ capGo K counts l by
    exact hgen l (fun _ => 0)
  intro l
  induction l with
  | nil => intro counts; simp [capGo]
  | cons b rest ih =>
    intro counts
    by_cases h1 : b.companies.isEmpty = true
    · simpa [capGo, h1] using ih counts
    · by_cases h2 : b.companies.any (fun c => decide (K ≤ counts c)) = true
      · simpa [capGo, h1, h2] using ih counts
      · simp only [capGo, h1, h2]
        intro hmem
        rcases List.mem_cons.mp (by simpa using hmem) with h0 | h0
        · subst h0
          simp [h] at h1
        · exact ih (bumpCounts counts b.companies) h0

/-- C7 witness article without tags. -/
def artNoTag : Article := { title := "x", url := "https://a.com/x", description := "", companies := [] }

/-- C7 witness: the untagged article is dropped at a concrete input. -/
theorem c7_no_tag_drop_witness :
    artNoTag.companies = [] ∧ artNoTag ∉ limit_per_company [artNoTag] 7 :=
  ⟨rfl, c7_no_tag_drop [artNoTag] 7 artNoTag rfl⟩

/-- C5: the relevance classifier is a hard boolean gate over the lowercase
concatenated text: any incident-blacklist hit rejects unconditionally; a
study hit without a commercial-whitelist hit rejects; otherwise the article
is kept. -/
theorem c5_classifier_gate (a : Article) :
    (has_any (text_of a) INCIDENT_BLACKLIST = true → is_business_relevant a = false)
    ∧ (has_any (text_of a) INCIDENT_BLACKLIST = false →
        has_any (text_of a) STUDY_REPORT_TERMS = true →
        has_any (text_of a) COMMERCIAL_WHITELIST = false →
        is_business_relevant a = false)
    ∧ (has_any (text_of a) INCIDENT_BLACKLIST = false →
        (has_any (text_of a) STUDY_REPORT_TERMS = false
          ∨ has_any (text_of a) COMMERCIAL_WHITELIST = true) →
        is_business_relevant a = true) := by
  refine ⟨?_, ?_, ?_⟩
  · intro h
    simp [is_business_relevant, h]
  · intro h1 h2 h3
    simp [is_business_relevant, h1, h2, h3]
  · intro h1 h2
    rcases h2 with h2 | h2
    · simp [is_business_relevant, h1, h2]
    · simp [is_business_relevant, h1, h2]

/-- C5 witness article with incident vocabulary. -/
def artStab : Article := { title := "Uber driver stabbed in altercation", url := "https://n.com/1", description := "", companies := [] }

/-- C5 witness article with a bare study mention. -/
def artStudy : Article := { title := "new study finds ride-hailing growth", url := "https://n.com/2", description := "", companies := [] }

/-- C5 witness article with the same study text plus a funding mention. -/
def artFund : Article := { title := "new study finds ride-hailing growth", url := "https://n.com/2", description := "funding round announced", companies := [] }

/-- C5 witness: the three example articles of the claim are classified as
the claim states. -/
theorem c5_classifier_gate_witness :
    is_business_relevant artStab = false
    ∧ is_business_relevant artStudy = false
    ∧ is_business_relevant artFund = true :=
  ⟨(c5_classifier_gate artStab).1 (by decide),
   (c5_classifier_gate artStudy).2.1 (by decide) (by decide) (by decide),
   (c5_classifier_gate artFund).2.2 (by decide) (Or.inr (by decide))⟩

/-- C9: keyword matching is plain substring containment, and "ev" is a
commercial-whitelist entry, so any article whose text contains "ev" and no
incident-blacklist term is accepted, whatever study terms it contains. -/
theorem c9_ev_substring (a : Article)
    (h1 : strIn "ev" (text_of a) = true)
    (h2 : has_any (text_of a) INCIDENT_BLACKLIST = false) :
    is_business_relevant a = true := by
  have hw : has_any (text_of a) COMMERCIAL_WHITELIST = true := by
    rw [has_any, List.any_eq_true]
    exact ⟨"ev", by decide, h1⟩
  simp [is_business_relevant, h2, hw]

/-- C9 witness article: a report text containing "ev" only inside the word
"reveals". -/
def artReveals : Article := { title := "report reveals market shifts", url := "https://n.com/3", description := "", companies := [] }

/-- C9 witness: the classifier keeps the concrete study-style article whose
only whitelist hit is the "ev" inside "reveals". -/
theorem c9_ev_substring_witness :
    strIn "ev" (text_of artReveals) = true
    ∧ has_any (text_of artReveals) INCIDENT_BLACKLIST = false
    ∧ has_any (text_of artReveals) STUDY_REPORT_TERMS = true
    ∧ is_business_relevant artReveals = true :=
  ⟨by decide, by decide, by decide, c9_ev_substring artReveals (by decide) (by decide)⟩

/-- C1 failing input: two articles with the same canonical url and
dissimilar titles. -/
def artC1a : Article := { title := "aaaa", url := "https://x.com/a?id=1", description := "", companies := [] }

/-- Second C1 failing-input article. -/
def artC1b : Article := { title := "zzzz", url := "https://x.com/a?id=2", description := "", companies := [] }

/-- C1: evaluation of the deduplicator at the failing input. The two
articles canonicalize to the same url, yet both survive the similarity
deduplicator, because the scan compares titles only and never compares the
canonical urls it computes (contradicting the comment in the source that
duplicates are detected by url or by similar title, and the claimed
invariant). -/
theorem c1_code_eval :
    merge_dedupe_with_similarity [artC1a, artC1b] = [artC1a, artC1b]
    ∧ canonical_url artC1a.url = canonical_url artC1b.url
    ∧ artC1a.url ≠ artC1b.url := by
  refine ⟨by decide, by decide, by decide⟩

/-- C8 counterexample: an url ending in two slashes loses both of them, not
one; rstrip("/") removes every trailing slash. -/
theorem c8_counterexample :
    canonical_url "https://e.com/a//" = "https://e.com/a"
    ∧ canonical_url "https://e.com/a//" ≠ "https://e.com/a/" := by
  refine ⟨by decide, by decide⟩

/-- The head of a dropWhile result fails the predicate. -/
theorem dropWhile_head_false {α : Type} (p : α → Bool) :
    ∀ (l : List α) (c : α) (r : List α), l.dropWhile p = c :: r → p c = false := by
  intro l
  induction l with
  | nil => intro c r h; simp [List.dropWhile] at h
  | cons a as ih =>
    intro c r h
    rw [List.dropWhile_cons] at h
    by_cases pa : p a = true
    · rw [if_pos pa] at h
      exact ih c r h
    · rw [if_neg pa] at h
      cases h
      simpa using pa

/-- C8 amended: the canonical url is the prefix of the raw url before the
first question mark with every trailing slash removed: it never ends in a
slash, contains no question mark, and the raw url decomposes into the
canonical part, a run of slashes, and a remainder that is empty or starts
with the first question mark. -/
theorem c8_amended (s : String) :
    (canonical_url s).data.getLast? ≠ some '/'
    ∧ (canonical_url s).data.all (fun c => c != '?') = true
    ∧ ∃ m rest, s.data = (canonical_url s).data ++ List.replicate m '/' ++ rest
        ∧ (rest.head?.getD '?') = '?' := by
  have hdata : (canonical_url s).data
      = ((s.data.takeWhile (fun c => c != '?')).reverse.dropWhile
          (fun c => (['/'] : List Char).contains c)).reverse := rfl
  refine ⟨?_, ?_, ?_⟩
  · rw [hdata, List.getLast?_reverse]
    cases hu : (s.data.takeWhile (fun c => c != '?')).reverse.dropWhile
        (fun c => (['/'] : List Char).contains c) with
    | nil => simp
    | cons c r =>
      have := dropWhile_head_false _ _ _ _ hu
      have hc : c ≠ '/' := by simpa using this
      simp [hc]
  · rw [List.all_eq_true]
    intro c hc
    rw [hdata, List.mem_reverse] at hc
    have hc2 : c ∈ (s.data.takeWhile (fun c => c != '?')).reverse :=
      (List.dropWhile_sublist _).mem hc
    rw [List.mem_reverse] at hc2
    have := List.mem_takeWhile_imp hc2
    simpa using this
  · refine ⟨((s.data.takeWhile (fun c => c != '?')).reverse.takeWhile
        (fun c => (['/'] : List Char).contains c)).length,
      s.data.dropWhile (fun c => c != '?'), ?_, ?_⟩
    · have hsplit := List.takeWhile_append_dropWhile
        (p := fun c => c != '?') (l := s.data)
      have hsplit2 := List.takeWhile_append_dropWhile
        (p := fun c => (['/'] : List Char).contains c)
        (l := (s.data.takeWhile (fun c => c != '?')).reverse)
      have hrepl : ((s.data.takeWhile (fun c => c != '?')).reverse.takeWhile
            (fun c => (['/'] : List Char).contains c)).reverse
          = List.replicate ((s.data.takeWhile (fun c => c != '?')).reverse.takeWhile
              (fun c => (['/'] : List Char).contains c)).length '/' := by
        rw [← List.length_reverse]
        apply List.eq_replicate_of_mem
        intro b hb
        rw [List.mem_reverse] at hb
        have := List.mem_takeWhile_imp hb
        simpa using this
      rw [hdata, ← hrepl, ← List.reverse_append, hsplit2, List.reverse_reverse]
      exact hsplit.symm
    · cases hd : s.data.dropWhile (fun c => c != '?') with
      | nil => simp
      | cons c r =>
        have := dropWhile_head_false _ _ _ _ hd
        have hc : c = '?' := by simpa using this
        simp [hc]

/-! C6: the stable partition and the greedy duplicate scan. -/

/-- The duplicate scan extends the kept list with a subsequence of the
remaining input. -/
theorem dedupeScan_split : ∀ (rest kept : List Article),
    ∃ s, List.Sublist s rest ∧ dedupeScan kept rest = kept ++ s := by
  intro rest
  induction rest with
  | nil => intro kept; exact ⟨[], List.nil_sublist _, by simp [dedupeScan]⟩
  | cons a rs ih =>
    intro kept
    by_cases h : (kept.any (fun b => dupPair a b)) = true
    · obtain ⟨s, hs, he⟩ := ih kept
      exact ⟨s, List.Sublist.cons a hs, by simpa [dedupeScan, h] using he⟩
    · obtain ⟨s, hs, he⟩ := ih (kept ++ [a])
      refine ⟨a :: s, List.Sublist.cons₂ a hs, ?_⟩
      simp only [dedupeScan, h, if_neg]
      simpa [List.append_assoc] using he

/-- Every article of the remaining input that is missing from the scan
result duplicates some article of the result. -/
theorem dedupeScan_dropped : ∀ (rest kept : List Article) (a : Article),
    a ∈ rest → a ∉ dedupeScan kept rest →
    ∃ b, b ∈ dedupeScan kept rest ∧ dupPair a b = true := by
  intro rest
  induction rest with
  | nil => intro kept a h; cases h
  | cons x rs ih =>
    intro kept a hmem hnot
    by_cases h : (kept.any (fun b => dupPair x b)) = true
    · have hres : dedupeScan kept (x :: rs) = dedupeScan kept rs := by
        simp [dedupeScan, h]
      rw [hres] at hnot ⊢
      rcases List.mem_cons.mp hmem with h0 | h0
      · subst h0
        obtain ⟨b, hb, hd⟩ := List.any_eq_true.mp h
        obtain ⟨s, _, he⟩ := dedupeScan_split rs kept
        exact ⟨b, by rw [he]; exact List.mem_append_left _ hb, hd⟩
      · exact ih kept a h0 hnot
    · have hres : dedupeScan kept (x :: rs) = dedupeScan (kept ++ [x]) rs := by
        simp [dedupeScan, h]
      rw [hres] at hnot ⊢
      rcases List.mem_cons.mp hmem with h0 | h0
      · subst h0
        exfalso
        apply hnot
        obtain ⟨s, _, he⟩ := dedupeScan_split rs (kept ++ [a])
        rw [he]
        exact List.mem_append_left _ (List.mem_append_right _ (by simp))
      · exact ih (kept ++ [x]) a h0 hnot

/-- C6: merge_dedupe_with_similarity stably partitions its input before the
scan (non-aggregator domains first, each side a subsequence of the input,
together a permutation of it), and the duplicate scan keeps a subsequence
of that partitioned order in which every dropped article duplicates a kept,
earlier-scanned one. -/
theorem c6_partition_dedupe (l : List Article) :
    (∃ u v, orderedOf l = u ++ v
      ∧ (∀ a ∈ u, isAgg a = false) ∧ (∀ a ∈ v, isAgg a = true)
      ∧ List.Sublist u l ∧ List.Sublist v l ∧ List.Perm (u ++ v) l)
    ∧ List.Sublist (merge_dedupe_with_similarity l) (orderedOf l)
    ∧ (∀ a, a ∈ orderedOf l → a ∉ merge_dedupe_with_similarity l →
        ∃ b, b ∈ merge_dedupe_with_similarity l ∧ dupPair a b = true) := by
  refine ⟨?_, ?_, ?_⟩
  · refine ⟨l.filter (fun a => !isAgg a), l.filter (fun a => isAgg a), rfl, ?_, ?_, ?_, ?_, ?_⟩
    · intro a ha
      have := List.of_mem_filter ha
      simpa using this
    · intro a ha
      exact List.of_mem_filter ha
    · exact List.filter_sublist l
    · exact List.filter_sublist l
    · have hperm := List.filter_append_perm (fun a => !isAgg a) l
      have hco : l.filter (fun x => !(!isAgg x)) = l.filter (fun a => isAgg a) := by
        apply List.filter_congr
        intro x _
        simp
      rw [hco] at hperm
      exact hperm
  · obtain ⟨s, hs, he⟩ := dedupeScan_split (orderedOf l) []
    rw [merge_dedupe_with_similarity, he]
    simpa using hs
  · intro a hmem hnot
    exact dedupeScan_dropped (orderedOf l) [] a hmem hnot

/-- C6 witness: an aggregator-domain article, then two cross-domain copies
of one story. -/
def artC6a : Article := { title := "zzz qqq", url := "https://news.google.com/a", description := "", companies := [] }

/-- C6 witness: first copy of the story, non-aggregator domain. -/
def artC6b : Article := { title := "alpha launch", url := "https://b.com/x", description := "", companies := [] }

/-- C6 witness: second copy of the story on another non-aggregator domain. -/
def artC6c : Article := { title := "alpha launch", url := "https://c.com/y", description := "", companies := [] }

/-- C6 witness: at a concrete input the aggregator article is moved behind
the others, the duplicate copy is dropped, and the theorem produces the
kept earlier article it duplicates. -/
theorem c6_partition_dedupe_witness :
    orderedOf [artC6a, artC6b, artC6c] = [artC6b, artC6c, artC6a]
    ∧ merge_dedupe_with_similarity [artC6a, artC6b, artC6c] = [artC6b, artC6a]
    ∧ (artC6c ∈ orderedOf [artC6a, artC6b, artC6c]
        ∧ artC6c ∉ merge_dedupe_with_similarity [artC6a, artC6b, artC6c])
    ∧ ∃ b, b ∈ merge_dedupe_with_similarity [artC6a, artC6b, artC6c]
        ∧ dupPair artC6c b = true :=
  ⟨by decide, by decide, ⟨by decide, by decide⟩,
   (c6_partition_dedupe [artC6a, artC6b, artC6c]).2.2 artC6c (by decide) (by decide)⟩

/-! C4: what the output sanitizer drops and what it keeps. -/

/-- C4 counterexample text: a Top block containing a malformed bullet (one
" — "-field, no anchor). -/
def c4text : String := "<b>📌 Top 15</b>\n➡️ hello\n––––"

/-- C4 counterexample: the malformed, anchor-less bullet is kept, not
dropped: both sanitization passes return the text unchanged with the bullet
still in it. -/
theorem c4_counterexample :
    enforce_output_company_cap c4text 7 = c4text
    ∧ dedupe_output_bullets c4text = c4text
    ∧ "➡️ hello" ∈ pySplitlines c4text
    ∧ strStarts (pyStrip "➡️ hello") "➡️" = true
    ∧ (bulletParts "➡️ hello").length < 3
    ∧ anchorUrl (pyStrip "➡️ hello") = none := by
  refine ⟨by decide, by decide, by decide, by decide, by decide, by decide⟩

/-- A bullet with fewer than three fields is kept by the cap pass. -/
theorem processSection_keeps_malformed (maxPer : Nat) (ln : String)
    (hp : (bulletParts ln).length < 3) :
    ∀ (sec : List String) (counts : String → Nat),
      ln ∈ sec → ln ∈ processSection maxPer counts sec := by
  intro sec
  induction sec with
  | nil => intro counts h; cases h
  | cons hd tl ih =>
    intro counts hmem
    unfold processSection
    rcases List.mem_cons.mp hmem with h0 | h0
    · subst h0
      by_cases hb : strStarts (pyStrip ln) "➡️" = true
      · rw [if_pos hb, if_pos hp]
        exact List.mem_cons_self ln _
      · rw [if_neg hb]
        exact List.mem_cons_self ln _
    · by_cases hb : strStarts (pyStrip hd) "➡️" = true
      · rw [if_pos hb]
        by_cases h1 : (bulletParts hd).length < 3
        · rw [if_pos h1]
          exact List.mem_cons_of_mem hd (ih counts h0)
        · rw [if_neg h1]
          by_cases h2 : (bulletComps hd).any (fun c => COMPANIES.contains c) = true
          · rw [if_pos h2]
            by_cases h3 : (bulletComps hd).any
                (fun c => COMPANIES.contains c && decide (maxPer ≤ counts c)) = true
            · rw [if_pos h3]
              exact ih counts h0
            · rw [if_neg h3]
              exact List.mem_cons_of_mem hd (ih (bumpCounts counts (bulletComps hd)) h0)
          · rw [if_neg h2]
            exact ih counts h0
      · rw [if_neg hb]
        exact List.mem_cons_of_mem hd (ih counts h0)

/-- A parsable bullet whose labels name no known company is dropped by the
cap pass: no occurrence of it remains. -/
theorem processSection_drops_unknown (maxPer : Nat) (ln : String)
    (hb : strStarts (pyStrip ln) "➡️" = true)
    (hp : 3 ≤ (bulletParts ln).length)
    (hu : (bulletComps ln).any (fun c => COMPANIES.contains c) = false) :
    ∀ (sec : List String) (counts : String → Nat),
      ln ∉ processSection maxPer counts sec := by
  intro sec
  induction sec with
  | nil => intro counts h; simp [processSection] at h
  | cons hd tl ih =>
    intro counts
    unfold processSection
    by_cases hbh : strStarts (pyStrip hd) "➡️" = true
    · rw [if_pos hbh]
      by_cases h1 : (bulletParts hd).length < 3
      · rw [if_pos h1]
        intro hmem
        rcases List.mem_cons.mp hmem with h0 | h0
        · subst h0; omega
        · exact ih counts h0
      · rw [if_neg h1]
        by_cases h2 : (bulletComps hd).any (fun c => COMPANIES.contains c) = true
        · rw [if_pos h2]
          by_cases h3 : (bulletComps hd).any
              (fun c => COMPANIES.contains c && decide (maxPer ≤ counts c)) = true
          · rw [if_pos h3]
            exact ih counts
          · rw [if_neg h3]
            intro hmem
            rcases List.mem_cons.mp hmem with h0 | h0
            · subst h0
              rw [hu] at h2
              exact absurd h2 (by simp)
            · exact ih (bumpCounts counts (bulletComps hd)) h0
        · rw [if_neg h2]
          exact ih counts
    · rw [if_neg hbh]
      intro hmem
      rcases List.mem_cons.mp hmem with h0 | h0
      · subst h0; exact absurd hb hbh
      · exact ih counts h0

/-- A bullet without a parsable anchor url is kept by the output dedup. -/
theorem dedupeGo_keeps_no_anchor (ln : String)
    (hb : strStarts (pyStrip ln) "➡️" = true)
    (ha : anchorUrl (pyStrip ln) = none) :
    ∀ (ls : List String) (seen : List String),
      ln ∈ ls → ln ∈ dedupeGo seen ls := by
  intro ls
  induction ls with
  | nil => intro seen h; cases h
  | cons hd tl ih =>
    intro seen hmem
    unfold dedupeGo
    rcases List.mem_cons.mp hmem with h0 | h0
    · subst h0
      rw [if_pos hb, ha]
      exact List.mem_cons_self ln _
    · by_cases hbh : strStarts (pyStrip hd) "➡️" = true
      · rw [if_pos hbh]
        cases hah : anchorUrl (pyStrip hd) with
        | none => exact List.mem_cons_of_mem hd (ih seen h0)
        | some u =>
          show ln ∈ if seen.contains u = true then dedupeGo seen tl
              else hd :: dedupeGo (u :: seen) tl
          by_cases hseen : seen.contains u = true
          · rw [if_pos hseen]
            exact ih seen h0
          · rw [if_neg hseen]
            exact List.mem_cons_of_mem hd (ih (u :: seen) h0)
      · rw [if_neg hbh]
        exact List.mem_cons_of_mem hd (ih seen h0)

/-- C4 amended: during output sanitization only a parsable bullet whose
company labels match no known company is dropped; a malformed bullet (fewer
than three " — "-fields) is kept uncounted by the cap pass, and a bullet
whose link target does not match the anchor pattern is kept by the output
dedup (it is merely exempt from url dedup). -/
theorem c4_amended (maxPer : Nat) (counts : String → Nat)
    (sec ls seen : List String) (ln : String) :
    (ln ∈ sec → (bulletParts ln).length < 3 → ln ∈ processSection maxPer counts sec)
    ∧ (strStarts (pyStrip ln) "➡️" = true → 3 ≤ (bulletParts ln).length →
        (bulletComps ln).any (fun c => COMPANIES.contains c) = false →
        ln ∉ processSection maxPer counts sec)
    ∧ (ln ∈ ls → strStarts (pyStrip ln) "➡️" = true → anchorUrl (pyStrip ln) = none →
        ln ∈ dedupeGo seen ls) := by
  refine ⟨?_, ?_, ?_⟩
  · intro hmem hp
    exact processSection_keeps_malformed maxPer ln hp sec counts hmem
  · intro hb hp hu
    exact processSection_drops_unknown maxPer ln hb hp hu sec counts
  · intro hmem hb ha
    exact dedupeGo_keeps_no_anchor ln hb ha ls seen hmem

/-- C4 amended witness: the malformed bullet is kept, the unknown-company
bullet is dropped, the anchor-less bullet survives the dedup, at concrete
inputs. -/
theorem c4_amended_witness :
    "➡️ hello" ∈ processSection 7 (fun _ => 0) ["➡️ hello"]
    ∧ "➡️ a — b — NoCo" ∉ processSection 7 (fun _ => 0) ["➡️ a — b — NoCo"]
    ∧ "➡️ plain" ∈ dedupeGo [] ["➡️ plain"] :=
  ⟨(c4_amended 7 (fun _ => 0) ["➡️ hello"] [] [] "➡️ hello").1 (by decide) (by decide),
   (c4_amended 7 (fun _ => 0) ["➡️ a — b — NoCo"] [] [] "➡️ a — b — NoCo").2.1
     (by decide) (by decide) (by decide),
   (c4_amended 7 (fun _ => 0) [] ["➡️ plain"] [] "➡️ plain").2.2
     (by decide) (by decide) (by decide)⟩

/-! C10: the cap pass outside a recognized Top block. -/

/-- When no line satisfies the predicate, the index search fails. -/
theorem findIdxQ_eq_none (p : String → Bool) :
    ∀ (l : List String), (∀ ln ∈ l, p ln = false) → findIdxQ p l = none := by
  intro l
  induction l with
  | nil => intro _; rfl
  | cons x xs ih =>
    intro h
    have hx : p x = false := h x (List.mem_cons_self x xs)
    unfold findIdxQ
    rw [hx]
    simp only [Bool.false_eq_true, if_false]
    rw [ih (fun ln hln => h ln (List.mem_cons_of_mem x hln))]
    rfl

/-- C10: enforce_output_company_cap is the identity on any text without a
Top header line; and when a Top block exists the lines before the header
and the lines from the block terminator on are returned unchanged around
the processed section. -/
theorem c10_outside_top_identity (text : String) (maxPer : Nat) :
    ((∀ ln ∈ pySplitlines text, isTopHeader ln = false) →
      enforce_output_company_cap text maxPer = text)
    ∧ (∀ t, findIdxQ isTopHeader (pySplitlines text) = some t →
        ∃ sec, enforceCapLines (pySplitlines text) maxPer
          = (pySplitlines text).take (t + 1) ++ sec
            ++ (pySplitlines text).drop (endIdxFrom (pySplitlines text) t)) := by
  constructor
  · intro h
    unfold enforce_output_company_cap
    rw [findIdxQ_eq_none isTopHeader (pySplitlines text) h]
  · intro t ht
    unfold enforceCapLines
    rw [ht]
    exact ⟨_, rfl⟩

/-- C10 witness: identity on a concrete text without a Top header, and the
prefix and suffix preservation at a concrete text with one. -/
theorem c10_outside_top_identity_witness :
    enforce_output_company_cap "hello\nworld" 7 = "hello\nworld"
    ∧ ∃ sec, enforceCapLines (pySplitlines "<b>📌 Top 15</b>\n➡️ x\n––––\ntail") 7
        = (pySplitlines "<b>📌 Top 15</b>\n➡️ x\n––––\ntail").take 1 ++ sec
          ++ (pySplitlines "<b>📌 Top 15</b>\n➡️ x\n––––\ntail").drop
              (endIdxFrom (pySplitlines "<b>📌 Top 15</b>\n➡️ x\n––––\ntail") 0) :=
  ⟨(c10_outside_top_identity "hello\nworld" 7).1 (by decide),
   (c10_outside_top_identity "<b>📌 Top 15</b>\n➡️ x\n––––\ntail" 7).2 0 (by decide)⟩

/-! C2: the truncator terminates by construction and its output is bounded
whenever the fixed non-bullet text fits. -/

/-- Folding eraseIdx over an index list (the cumulative effect of the
bullet-dropping loop). -/
def eraseAll (l : List String) (idxs : List Nat) : List String :=
  idxs.foldl (fun cur i => cur.eraseIdx i) l

/-- Erasing only positive positions leaves the head alone. -/
theorem eraseAll_map_succ : ∀ (d : List Nat) (y : String) (ys : List String),
    eraseAll (y :: ys) (d.map (fun n => n + 1)) = y :: eraseAll ys d := by
  intro d
  induction d with
  | nil => intro y ys; rfl
  | cons i d ih =>
    intro y ys
    show eraseAll (y :: ys.eraseIdx i) (d.map (fun n => n + 1))
        = y :: eraseAll (ys.eraseIdx i) d
    exact ih y (ys.eraseIdx i)

/-- Erasing, from the back, exactly the bullet positions of a list of the
same shape yields the non-bullet lines of the original (the contents at
non-bullet positions being unchanged). -/
theorem eraseAll_bulletIdxs : ∀ (l0 l1 : List String),
    l1.length = l0.length →
    (∀ j, j ∉ bulletIdxs l0 → l1.getD j "" = l0.getD j "") →
    eraseAll l1 (bulletIdxs l0).reverse = l0.filter (fun x => !isBulletT x) := by
  intro l0
  induction l0 with
  | nil =>
    intro l1 hlen _
    cases l1 with
    | nil => rfl
    | cons y ys => simp at hlen
  | cons x xs ih =>
    intro l1 hlen hagree
    cases l1 with
    | nil => simp at hlen
    | cons y ys =>
      have hlen' : ys.length = xs.length := by simpa using hlen
      have hagree' : ∀ j, j ∉ bulletIdxs xs → ys.getD j "" = xs.getD j "" := by
        intro j hj
        have hj1 : (j + 1) ∉ bulletIdxs (x :: xs) := by
          unfold bulletIdxs
          by_cases hx : isBulletT x = true
          · rw [if_pos hx]
            intro hcon
            rcases List.mem_cons.mp hcon with h0 | h0
            · omega
            · rw [List.mem_map] at h0
              obtain ⟨n, hn, he⟩ := h0
              have hnj : n = j := by omega
              subst hnj; exact hj hn
          · rw [if_neg hx]
            intro hcon
            rw [List.mem_map] at hcon
            obtain ⟨n, hn, he⟩ := hcon
            have hnj : n = j := by omega
            subst hnj; exact hj hn
        have := hagree (j + 1) hj1
        simpa [List.getD_cons_succ] using this
      by_cases hx : isBulletT x = true
      · have hbi : bulletIdxs (x :: xs) = 0 :: (bulletIdxs xs).map (fun n => n + 1) := by
          simp only [bulletIdxs]; rw [if_pos hx]
        rw [hbi, List.reverse_cons]
        have hrev : ((bulletIdxs xs).map (fun n => n + 1)).reverse
            = (bulletIdxs xs).reverse.map (fun n => n + 1) :=
          (List.map_reverse _ _).symm
        rw [hrev]
        have happ : eraseAll (y :: ys)
              ((bulletIdxs xs).reverse.map (fun n => n + 1) ++ [0])
            = eraseAll (eraseAll (y :: ys)
                ((bulletIdxs xs).reverse.map (fun n => n + 1))) [0] := by
          unfold eraseAll; rw [List.foldl_append]
        rw [happ, eraseAll_map_succ]
        have h0 : eraseAll (y :: eraseAll ys (bulletIdxs xs).reverse) [0]
            = eraseAll ys (bulletIdxs xs).reverse := rfl
        rw [h0, ih ys hlen' hagree']
        simp [List.filter_cons, hx]
      · have hbi : bulletIdxs (x :: xs) = (bulletIdxs xs).map (fun n => n + 1) := by
          simp only [bulletIdxs]; rw [if_neg hx]
        rw [hbi]
        have hrev : ((bulletIdxs xs).map (fun n => n + 1)).reverse
            = (bulletIdxs xs).reverse.map (fun n => n + 1) :=
          (List.map_reverse _ _).symm
        rw [hrev, eraseAll_map_succ, ih ys hlen' hagree']
        have hy : y = x := by
          have hnot : (0 : Nat) ∉ bulletIdxs (x :: xs) := by
            rw [hbi]; simp
          have := hagree 0 hnot
          simpa using this
        rw [hy]
        simp [List.filter_cons, hx]

/-- Shrinking does not change the number of lines. -/
theorem applyShrinks_length (bidx : List Nat) : ∀ (lines : List String) (m : Nat),
    (applyShrinks lines bidx m).length = lines.length := by
  induction bidx with
  | nil => intro lines m; rfl
  | cons i is ih =>
    intro lines m
    show (applyShrinks (lines.set i (shrink_line (lines.getD i "") m)) is m).length
        = lines.length
    rw [ih]
    exact List.length_set lines i _

/-- Setting one position leaves every other position unchanged. -/
theorem getD_set_ne : ∀ (l : List String) (i j : Nat) (v : String), i ≠ j →
    (l.set i v).getD j "" = l.getD j "" := by
  intro l
  induction l with
  | nil => intro i j v _; rfl
  | cons a as ih =>
    intro i j v h
    cases i with
    | zero =>
      cases j with
      | zero => omega
      | succ j2 => simp [List.getD_cons_succ]
    | succ i2 =>
      cases j with
      | zero => simp [List.getD_cons_zero]
      | succ j2 =>
        have h2 : i2 ≠ j2 := by omega
        simpa [List.getD_cons_succ] using ih i2 j2 v h2

/-- Shrinking touches only the bullet positions. -/
theorem applyShrinks_getD (bidx : List Nat) : ∀ (lines : List String) (m j : Nat),
    j ∉ bidx → (applyShrinks lines bidx m).getD j "" = lines.getD j "" := by
  induction bidx with
  | nil => intro lines m j _; rfl
  | cons i is ih =>
    intro lines m j h
    have hji : i ≠ j := fun he => h (he ▸ List.mem_cons_self i is)
    have hjs : j ∉ is := fun hm => h (List.mem_cons_of_mem i hm)
    show (applyShrinks (lines.set i (shrink_line (lines.getD i "") m)) is m).getD j ""
        = lines.getD j ""
    rw [ih _ m j hjs, getD_set_ne lines i j _ hji]

/-- The shrink loop does not change the number of lines. -/
theorem shrinkGo_length : ∀ (fuel : Nat) (lines : List String) (bidx : List Nat)
    (maxLen limit : Nat),
    (shrinkGo fuel lines bidx maxLen limit).length = lines.length := by
  intro fuel
  induction fuel with
  | zero => intro lines bidx maxLen limit; rfl
  | succ fuel ih =>
    intro lines bidx maxLen limit
    unfold shrinkGo
    by_cases hc : limit < (joinNL lines).length ∧ 80 ≤ maxLen
    · rw [if_pos hc, ih, applyShrinks_length]
    · rw [if_neg hc]

/-- The shrink loop touches only the bullet positions. -/
theorem shrinkGo_getD : ∀ (fuel : Nat) (lines : List String) (bidx : List Nat)
    (maxLen limit j : Nat), j ∉ bidx →
    (shrinkGo fuel lines bidx maxLen limit).getD j "" = lines.getD j "" := by
  intro fuel
  induction fuel with
  | zero => intro lines bidx maxLen limit j _; rfl
  | succ fuel ih =>
    intro lines bidx maxLen limit j hj
    unfold shrinkGo
    by_cases hc : limit < (joinNL lines).length ∧ 80 ≤ maxLen
    · rw [if_pos hc, ih _ _ _ _ j hj, applyShrinks_getD _ _ _ j hj]
    · rw [if_neg hc]

/-- The drop loop either reaches the limit or erases every given index. -/
theorem dropGo_le_or_eraseAll (limit : Nat) : ∀ (rev : List Nat) (lines : List String),
    (joinNL (dropGo limit lines rev)).length ≤ limit
    ∨ dropGo limit lines rev = eraseAll lines rev := by
  intro rev
  induction rev with
  | nil => intro lines; right; rfl
  | cons i r ih =>
    intro lines
    unfold dropGo
    by_cases hc : limit < (joinNL lines).length
    · rw [if_pos hc]
      rcases ih (lines.eraseIdx i) with h1 | h1
      · left; exact h1
      · right; rw [h1]; rfl
    · rw [if_neg hc]
      left; omega

/-- C2 counterexample: a two-character text with no bullet lines and hard
limit one is returned unchanged, so the output exceeds the limit; the
claimed unconditional bound is false. -/
theorem c2_counterexample :
    truncate_to_one_message "ab" 1 = "ab"
    ∧ ¬ ((truncate_to_one_message "ab" 1).length ≤ 1) := by
  refine ⟨by decide, by decide⟩

/-- C2 amended: truncate_to_one_message always terminates (it is a total
function), and its output length is within the hard limit whenever the text
formed by the non-bullet lines alone (the fixed header and footer material,
which is all that remains when every bullet has been dropped) fits within
the hard limit. -/
theorem c2_amended (text : String) (hard_limit : Nat)
    (h : (joinNL ((pySplitlines text).filter (fun ln => !isBulletT ln))).length
      ≤ hard_limit) :
    (truncate_to_one_message text hard_limit).length ≤ hard_limit := by
  unfold truncate_to_one_message
  by_cases h0 : text.length ≤ hard_limit
  · rw [if_pos h0]; exact h0
  · rw [if_neg h0]
    rcases dropGo_le_or_eraseAll hard_limit (bulletIdxs (pySplitlines text)).reverse
        (shrinkGo 15 (pySplitlines text) (bulletIdxs (pySplitlines text)) 140 hard_limit)
      with h1 | h1
    · exact h1
    · rw [h1]
      have he := eraseAll_bulletIdxs (pySplitlines text)
        (shrinkGo 15 (pySplitlines text) (bulletIdxs (pySplitlines text)) 140 hard_limit)
        (shrinkGo_length 15 (pySplitlines text) (bulletIdxs (pySplitlines text)) 140 hard_limit)
        (fun j hj => shrinkGo_getD 15 (pySplitlines text)
          (bulletIdxs (pySplitlines text)) 140 hard_limit j hj)
      rw [he]
      exact h

/-- C2 witness: the amended bound applied at a concrete text and limit. -/
theorem c2_amended_witness :
    (joinNL ((pySplitlines "hi").filter (fun ln => !isBulletT ln))).length ≤ 10
    ∧ (truncate_to_one_message "hi" 10).length ≤ 10 :=
  ⟨by decide, c2_amended "hi" 10 (by decide)⟩
